import Mathlib

/-!
Verification of the Poisson Binomial distribution implementation (poibin.py).

The source builds, from a vector of n Bernoulli success probabilities, the
characteristic spectrum chi[0..n] (first half by log-magnitude and phase-angle
accumulation, second half by conjugate mirroring), divides by n+1, applies the
forward DFT (numpy.fft.fft, negative exponent) to obtain the probability mass
vector, checks that the result is real, and derives the cdf by prefix sums.
Queries pmf, cdf, pval validate their integer inputs by exact runtime type and
range before indexing the precomputed vectors.

The embedding works in exact real and complex arithmetic: input probabilities
are rationals (every Python float is a rational), the spectrum lives in the
complex numbers, and the transform is written as the defining finite sum.
-/

namespace PoiBinSpec

/-- Error taxonomy of the specification: `ValueError` and `AssertionError` of
the source correspond to invalid input, the source's `TypeError` raised on a
non-real transform output corresponds to a numerical-integrity failure. -/
inductive PBError where
  | invalidInput (msg : String)
  | numericalIntegrity (msg : String)
deriving DecidableEq

/-- Input as a numpy-style array: a shape together with the flattened data.
A flat list of length n has shape [n]; a nested list or a bare scalar has a
different shape, which is what the source's shape check rejects. -/
structure NDArray where
  shape : List Nat
  data : List ℚ

/-- Embedding of `check_input_prob`: shape must be one-dimensional, every
element nonnegative and at most 1, with the source's error messages. -/
def checkInputProb (a : NDArray) : Option PBError :=
  if a.shape ≠ [a.data.length] then
    some (.invalidInput ("Input must be an one-dimensional array or a list."))
  else if ¬ ∀ x ∈ a.data, 0 ≤ x then
    some (.invalidInput ("Input probabilites have to be non negative."))
  else if ¬ ∀ x ∈ a.data, x ≤ 1 then
    some (.invalidInput ("Input probabilites have to be smaller than 1."))
  else none

/-- Validity of the input array as the specification states it: a flat
one-dimensional vector with every element in [0,1]. -/
def validInput (a : NDArray) : Prop :=
  a.shape = [a.data.length] ∧ ∀ x ∈ a.data, 0 ≤ x ∧ x ≤ 1

instance (a : NDArray) : Decidable (validInput a) := by
  unfold validInput; infer_instance

/-- Runtime representation of a query value, with the Python runtime type made
explicit: the source accepts exactly the types `int` and `numpy.int64`. -/
inductive PyNum where
  | int (v : ℤ)
  | int64 (v : ℤ)
  | int32 (v : ℤ)
  | bool (b : Bool)
  | float (q : ℚ)
deriving DecidableEq

/-- Numeric value of a query argument (Python booleans compare equal to 0/1). -/
def PyNum.value : PyNum → ℚ
  | .int v => v
  | .int64 v => v
  | .int32 v => v
  | .bool b => if b then 1 else 0
  | .float q => q

/-- Embedding of the exact type test `type(k) == int or type(k) == np.int64`. -/
def PyNum.acceptedType : PyNum → Bool
  | .int _ => true
  | .int64 _ => true
  | _ => false

/-- Whether the numeric value is integral (a "true integer value" in the words
of the specification, regardless of the runtime type carrying it). -/
def PyNum.isIntegerValued : PyNum → Bool
  | .float q => q.den == 1
  | _ => true

/-- Index into the precomputed vectors once validation has passed; for the
accepted types this is the (nonnegative) integer value itself. -/
def PyNum.idx : PyNum → ℕ
  | .int v => v.toNat
  | .int64 v => v.toNat
  | .int32 v => v.toNat
  | .bool b => if b then 1 else 0
  | .float _ => 0

/-- Scalar branch of `check_rv_input`: type, nonnegativity and upper bound are
asserted in this order, with the source's messages (the upper-bound message
appends n, the number of probabilities). -/
def checkRvScalar (n : ℕ) (k : PyNum) : Option PBError :=
  if ¬ k.acceptedType then
    some (.invalidInput ("Input value must be an integer."))
  else if k.value < 0 then
    some (.invalidInput ("Input value cannot be negative."))
  else if (n : ℚ) < k.value then
    some (.invalidInput ("Input value cannot be greater than " ++ toString n))
  else none

/-- Sequence branch of `check_rv_input`: each element is checked in order,
the first failing assertion raising with the list-path messages. -/
def checkRvList (n : ℕ) : List PyNum → Option PBError
  | [] => none
  | k :: ks =>
    if ¬ k.acceptedType then
      some (.invalidInput ("Values in input list must be integers"))
    else if k.value < 0 then
      some (.invalidInput ("Values in input list cannot be negative."))
    else if (n : ℚ) < k.value then
      some (.invalidInput ("Values in input list must be smaller or equal to the number of input probabilities \x22n\x22"))
    else checkRvList n ks

/-- Query input: the source dispatches on iterability, a scalar on the left and
a sequence on the right. -/
abbrev RVInput := PyNum ⊕ List PyNum

/-- Embedding of `check_rv_input`. -/
def checkRvInput (n : ℕ) : RVInput → Option PBError
  | .inl k => checkRvScalar n k
  | .inr ks => checkRvList n ks

/-- Validity of one query value as the source accepts it: runtime type exactly
`int` or `numpy.int64` and value in [0,n]. -/
def rvScalarValid (n : ℕ) (k : PyNum) : Prop :=
  k.acceptedType = true ∧ 0 ≤ k.value ∧ k.value ≤ (n : ℚ)

instance (n : ℕ) (k : PyNum) : Decidable (rvScalarValid n k) := by
  unfold rvScalarValid; infer_instance

/-- Validity of a whole query input. -/
def rvValid (n : ℕ) : RVInput → Prop
  | .inl k => rvScalarValid n k
  | .inr ks => ∀ k ∈ ks, rvScalarValid n k

/-- Weight of one outcome pattern: the subset t of the n variables succeeds,
the rest fail. -/
def pbWeight (p : List ℚ) (t : Finset (Fin p.length)) : ℚ :=
  (∏ j ∈ t, p.get j) * ∏ j ∈ tᶜ, (1 - p.get j)

/-- Exact Poisson Binomial point probability: the sum of the weights of all
patterns with exactly k successes.  The transform pipeline of the source is
proved below to compute precisely these values. -/
def pbProb (p : List ℚ) (k : ℕ) : ℚ :=
  ∑ t ∈ Finset.powersetCard k (Finset.univ : Finset (Fin p.length)), pbWeight p t

/-- Angular frequency step, `self.omega = 2 * np.pi / (self.n + 1)`. -/
noncomputable def omega (n : ℕ) : ℝ := 2 * Real.pi / (n + 1)

/-- Per-variable factor of the characteristic function at frequency index l,
`xy = 1 - self.p + self.p * np.exp(self.omega * l * 1j)`. -/
noncomputable def zfac (p : List ℚ) (l : ℕ) (j : Fin p.length) : ℂ :=
  1 - ((p.get j : ℚ) : ℝ) + ((p.get j : ℚ) : ℝ) *
    Complex.exp ((omega p.length * l : ℝ) * Complex.I)

open Classical in
/-- Embedding of `get_chi`: the total log magnitude and the total phase angle
are accumulated separately and recombined.  When some factor is zero, numpy
computes `log(0) = -inf` and `exp(-inf) = 0`, so the result is zero; in Lean,
where `Real.log 0 = 0`, that case is written out explicitly. -/
noncomputable def getChi (p : List ℚ) (l : ℕ) : ℂ :=
  if ∃ j, zfac p l j = 0 then 0
  else ((Real.exp (∑ j, Real.log (Complex.abs (zfac p l j))) : ℝ) : ℂ) *
    Complex.exp (((∑ j, (zfac p l j).arg : ℝ) : ℂ) * Complex.I)

/-- Number of directly computed frequencies, `int(self.n / 2 + self.n % 2)`,
which is the ceiling of n/2. -/
def halfN (n : ℕ) : ℕ := n / 2 + n % 2

/-- Characteristic spectrum before normalization: chi[0] = 1, the first half
computed by `get_chi`, the second half filled by the mirrored conjugates
`chi[half_n + 1 : n + 1] = conj(chi[1 : n - half_n + 1][::-1])`, index l
reading the conjugate of index n + 1 - l. -/
noncomputable def chi (p : List ℚ) (l : ℕ) : ℂ :=
  if l = 0 then 1
  else if l ≤ halfN p.length then getChi p l
  else (starRingEnd ℂ) (getChi p (p.length + 1 - l))

/-- Embedding of `np.fft.fft(chi / (n+1))` at output index k: the forward
transform with negative exponent applied to the normalized spectrum. -/
noncomputable def xi (p : List ℚ) (k : ℕ) : ℂ :=
  ∑ l ∈ Finset.range (p.length + 1),
    (chi p l / (p.length + 1)) * Complex.exp ((-(omega p.length * k * l) : ℝ) * Complex.I)

/-- Transform output as a vector of n + 1 entries. -/
noncomputable def xiList (p : List ℚ) : List ℂ :=
  (List.range (p.length + 1)).map (xi p)

/-- Machine-precision tolerance of `check_xi_are_real`, `eps = 1e-15`. -/
def epsXi : ℚ := 1e-15

/-- Embedding of `check_xi_are_real`, literally `np.all(xx.imag <= eps)`: the
test is one-sided in the signed imaginary part. -/
def checkXiAreReal (xs : List ℂ) : Prop :=
  ∀ x ∈ xs, x.im ≤ (epsXi : ℝ)

open Classical in
/-- Embedding of `get_pmf_xi`: on a transform output accepted by
`check_xi_are_real` the real parts are returned, otherwise the `TypeError`
(modelled as a numerical-integrity failure) is raised. -/
noncomputable def getPmfXi (p : List ℚ) : Except PBError (List ℝ) :=
  if checkXiAreReal (xiList p) then .ok ((xiList p).map Complex.re)
  else .error (.numericalIntegrity ("pmf / xi values have to be real."))

/-- Probability mass value at index k as the source stores it, the real part
of the transform output. -/
noncomputable def pmfVal (p : List ℚ) (k : ℕ) : ℝ := (xi p k).re

/-- Embedding of `get_cdf`: the running prefix sum c[0] = pmf[0],
c[i] = c[i-1] + pmf[i]. -/
noncomputable def cdfVal (p : List ℚ) : ℕ → ℝ
  | 0 => pmfVal p 0
  | k + 1 => cdfVal p k + pmfVal p (k + 1)

/-- The distribution object: after successful construction it owns the
(validated) probability vector, from which every derived vector is a pure
function. -/
structure Dist where
  p : List ℚ

/-- Number of variables, `self.n = self.p.size`. -/
def Dist.n (d : Dist) : ℕ := d.p.length

/-- Embedding of `PoiBin.__init__`: validate, then build the pmf vector
(which may raise the numerical-integrity error), then the cdf; either every
derived vector is available or an error is raised and no object exists. -/
noncomputable def construct (a : NDArray) : Except PBError Dist :=
  match checkInputProb a with
  | some e => .error e
  | none =>
    match getPmfXi a.data with
    | .error e => .error e
    | .ok _ => .ok ⟨a.data⟩

/-- Embedding of `PoiBin.pmf`: validate the query, then index the pmf vector,
elementwise for a sequence. -/
noncomputable def pmfQuery (d : Dist) (kk : RVInput) : Except PBError (ℝ ⊕ List ℝ) :=
  match checkRvInput d.n kk with
  | some e => .error e
  | none =>
    match kk with
    | .inl k => .ok (.inl (pmfVal d.p k.idx))
    | .inr ks => .ok (.inr (ks.map fun k => pmfVal d.p k.idx))

/-- Embedding of `PoiBin.cdf`. -/
noncomputable def cdfQuery (d : Dist) (kk : RVInput) : Except PBError (ℝ ⊕ List ℝ) :=
  match checkRvInput d.n kk with
  | some e => .error e
  | none =>
    match kk with
    | .inl k => .ok (.inl (cdfVal d.p k.idx))
    | .inr ks => .ok (.inr (ks.map fun k => cdfVal d.p k.idx))

/-- Embedding of `PoiBin.pval`: after validation, a sequence is mapped through
1 - cdf(k) + pmf(k); a scalar returns 1 at k = 0 and 1 - cdf(k-1) otherwise. -/
noncomputable def pvalQuery (d : Dist) (kk : RVInput) : Except PBError (ℝ ⊕ List ℝ) :=
  match checkRvInput d.n kk with
  | some e => .error e
  | none =>
    match kk with
    | .inl k => .ok (.inl (if k.idx = 0 then 1 else 1 - cdfVal d.p (k.idx - 1)))
    | .inr ks => .ok (.inr (ks.map fun k => 1 - cdfVal d.p k.idx + pmfVal d.p k.idx))

/-!
Lemmas: the spectrum computed in log-magnitude and phase-angle form equals the
plain product of the per-variable factors, the mirrored half satisfies
conjugate symmetry, and the transform output is exactly the Poisson Binomial
probability vector.
-/

/-- The log-magnitude and phase-angle accumulation of `get_chi` recombines to
the plain product of the per-variable factors. -/
theorem getChi_eq_prod (p : List ℚ) (l : ℕ) :
    getChi p l = ∏ j, zfac p l j := by
  unfold getChi
  split
  · rename_i h
    obtain ⟨j, hj⟩ := h
    exact (Finset.prod_eq_zero (Finset.mem_univ j) hj).symm
  · rename_i h
    push_neg at h
    rw [Real.exp_sum]
    have h1 : (∏ j, Real.exp (Real.log (Complex.abs (zfac p l j)))) =
        ∏ j, Complex.abs (zfac p l j) :=
      Finset.prod_congr rfl fun j _ => Real.exp_log (Complex.abs.pos (h j))
    rw [h1, Complex.ofReal_sum, Finset.sum_mul, Complex.exp_sum,
      Complex.ofReal_prod, ← Finset.prod_mul_distrib]
    exact Finset.prod_congr rfl fun j _ => Complex.abs_mul_exp_arg_mul_I _

/-- The frequency step times n + 1 is a full turn. -/
theorem omega_mul_nsucc (n : ℕ) : omega n * ((n : ℝ) + 1) = 2 * Real.pi := by
  unfold omega
  have : ((n : ℝ) + 1) ≠ 0 := by positivity
  field_simp

/-- Conjugating one per-variable factor moves it to the mirrored frequency:
the input probabilities are real, and the two frequency angles sum to a full
turn. -/
theorem zfac_conj (p : List ℚ) (l m : ℕ) (h : l + m = p.length + 1)
    (j : Fin p.length) :
    (starRingEnd ℂ) (zfac p l j) = zfac p m j := by
  unfold zfac
  rw [map_add, map_sub, map_one, map_mul, Complex.conj_ofReal,
    ← Complex.exp_conj, map_mul, Complex.conj_ofReal, Complex.conj_I]
  have hsum : omega p.length * (l : ℝ) + omega p.length * (m : ℝ) =
      2 * Real.pi := by
    rw [← mul_add, ← omega_mul_nsucc p.length]
    congr 1
    have : ((l + m : ℕ) : ℝ) = ((p.length + 1 : ℕ) : ℝ) := by rw [h]
    push_cast at this
    linarith
  congr 2
  calc Complex.exp (((omega p.length * l : ℝ) : ℂ) * -Complex.I)
      = Complex.exp (2 * Real.pi * Complex.I) *
          Complex.exp (((omega p.length * l : ℝ) : ℂ) * -Complex.I) := by
        rw [Complex.exp_two_pi_mul_I, one_mul]
    _ = Complex.exp (((omega p.length * m : ℝ) : ℂ) * Complex.I) := by
        rw [← Complex.exp_add]
        congr 1
        have hmr : omega p.length * (m : ℝ) =
            2 * Real.pi - omega p.length * (l : ℝ) := by linarith
        have hm : ((omega p.length * m : ℝ) : ℂ) =
            2 * (Real.pi : ℂ) - ((omega p.length * l : ℝ) : ℂ) := by
          rw [hmr]
          push_cast
          ring
        rw [hm]
        ring

/-- Conjugating the whole product of factors mirrors the frequency. -/
theorem zfac_prod_conj (p : List ℚ) (l m : ℕ) (h : l + m = p.length + 1) :
    (starRingEnd ℂ) (∏ j, zfac p l j) = ∏ j, zfac p m j := by
  rw [map_prod]
  exact Finset.prod_congr rfl fun j _ => zfac_conj p l m h j

/-- Every entry of the unnormalized spectrum, including the mirrored second
half, equals the plain product of the per-variable factors at its own
frequency. -/
theorem chi_eq_prod (p : List ℚ) (l : ℕ) (hl : l ≤ p.length) :
    chi p l = ∏ j, zfac p l j := by
  unfold chi
  split
  · rename_i h0
    subst h0
    symm
    refine Finset.prod_eq_one fun j _ => ?_
    unfold zfac
    simp only [Nat.cast_zero, mul_zero, Complex.ofReal_zero, zero_mul,
      Complex.exp_zero, mul_one]
    ring
  · rename_i h0
    split
    · exact getChi_eq_prod p l
    · rename_i hhalf
      rw [getChi_eq_prod]
      exact zfac_prod_conj p (p.length + 1 - l) l (by omega)

/-- Expanding the product of per-variable factors as a sum over success
patterns: each subset t of variables contributes its weight times the point on
the unit circle at angle omega l card(t). -/
theorem prod_zfac_expand (p : List ℚ) (l : ℕ) :
    ∏ j, zfac p l j =
      ∑ t ∈ (Finset.univ : Finset (Fin p.length)).powerset,
        ((pbWeight p t : ℚ) : ℂ) *
          Complex.exp ((omega p.length * l : ℝ) * Complex.I) ^ t.card := by
  classical
  have h1 : ∀ j : Fin p.length, zfac p l j =
      ((p.get j : ℚ) : ℂ) * Complex.exp ((omega p.length * l : ℝ) * Complex.I) +
        (1 - ((p.get j : ℚ) : ℂ)) := by
    intro j
    unfold zfac
    push_cast
    ring
  rw [Finset.prod_congr rfl fun j _ => h1 j, Finset.prod_add]
  refine Finset.sum_congr rfl fun t _ => ?_
  rw [Finset.prod_mul_distrib, Finset.prod_const]
  unfold pbWeight
  rw [Finset.compl_eq_univ_sdiff]
  push_cast
  ring

/-- Discrete orthogonality of the sampled circle points: summing the c-th
power of the forward factor against the k-th output factor over the n + 1
frequencies leaves n + 1 on the diagonal and zero elsewhere. -/
theorem exp_orthogonality (n : ℕ) (c k : ℕ) (hc : c ≤ n) (hk : k ≤ n) :
    ∑ l ∈ Finset.range (n + 1),
      Complex.exp ((omega n * l : ℝ) * Complex.I) ^ c *
        Complex.exp ((-(omega n * k * l) : ℝ) * Complex.I) =
      if c = k then ((n : ℂ) + 1) else 0 := by
  have hterm : ∀ l : ℕ,
      Complex.exp ((omega n * l : ℝ) * Complex.I) ^ c *
        Complex.exp ((-(omega n * k * l) : ℝ) * Complex.I) =
      Complex.exp (((omega n * ((c : ℝ) - k) : ℝ) : ℂ) * Complex.I) ^ l := by
    intro l
    rw [← Complex.exp_nat_mul, ← Complex.exp_nat_mul, ← Complex.exp_add]
    congr 1
    push_cast
    ring
  rcases eq_or_ne c k with hck | hck
  · subst hck
    rw [if_pos rfl]
    have h0 : ((omega n * ((c : ℝ) - c) : ℝ) : ℂ) * Complex.I = 0 := by
      rw [sub_self, mul_zero]
      simp
    calc ∑ l ∈ Finset.range (n + 1),
          Complex.exp ((omega n * l : ℝ) * Complex.I) ^ c *
            Complex.exp ((-(omega n * c * l) : ℝ) * Complex.I)
        = ∑ _l ∈ Finset.range (n + 1), (1 : ℂ) := by
          refine Finset.sum_congr rfl fun l _ => ?_
          rw [hterm l, h0, Complex.exp_zero, one_pow]
      _ = ((n : ℂ) + 1) := by
          rw [Finset.sum_const, Finset.card_range, nsmul_eq_mul, mul_one]
          push_cast
          ring
  · rw [if_neg hck]
    set x : ℂ := Complex.exp (((omega n * ((c : ℝ) - k) : ℝ) : ℂ) * Complex.I) with hx
    have hxpow : x ^ (n + 1) = 1 := by
      rw [hx, ← Complex.exp_nat_mul]
      have harg : ((n + 1 : ℕ) : ℂ) * (((omega n * ((c : ℝ) - k) : ℝ) : ℂ) * Complex.I) =
          (((c : ℤ) - (k : ℤ) : ℤ) : ℂ) * (2 * Real.pi * Complex.I) := by
        have hr : ((n : ℝ) + 1) * (omega n * ((c : ℝ) - k)) =
            ((c : ℝ) - k) * (2 * Real.pi) := by
          have := omega_mul_nsucc n
          nlinarith [this]
        push_cast
        push_cast at hr
        calc ((n : ℂ) + 1) * (((omega n : ℝ) : ℂ) * (((c : ℝ) : ℂ) - ((k : ℝ) : ℂ)) * Complex.I)
            = ((((n : ℝ) + 1) * (omega n * ((c : ℝ) - k)) : ℝ) : ℂ) * Complex.I := by
              push_cast
              ring
          _ = ((((c : ℝ) - k) * (2 * Real.pi) : ℝ) : ℂ) * Complex.I := by rw [hr]
          _ = (((c : ℝ) : ℂ) - ((k : ℝ) : ℂ)) * (2 * Real.pi * Complex.I) := by
              push_cast
              ring
      rw [harg, Complex.exp_int_mul_two_pi_mul_I]
    have hx1 : x ≠ 1 := by
      intro habs
      rw [hx, Complex.exp_eq_one_iff] at habs
      obtain ⟨z, hz⟩ := habs
      have hz2 : ((omega n * ((c : ℝ) - k) : ℝ) : ℂ) = ((z : ℝ) * (2 * Real.pi) : ℝ) := by
        have : ((z : ℂ)) * (2 * (Real.pi : ℂ) * Complex.I) =
            (((z : ℝ) * (2 * Real.pi) : ℝ) : ℂ) * Complex.I := by
          push_cast
          ring
        rw [this] at hz
        exact mul_right_cancel₀ Complex.I_ne_zero hz
      have hzr : omega n * ((c : ℝ) - k) = (z : ℝ) * (2 * Real.pi) :=
        Complex.ofReal_inj.mp hz2
      have hpi : (0 : ℝ) < Real.pi := Real.pi_pos
      have hnpos : (0 : ℝ) < (n : ℝ) + 1 := by positivity
      have hck' : ((c : ℝ) - k) = (z : ℝ) * ((n : ℝ) + 1) := by
        unfold omega at hzr
        field_simp at hzr
        nlinarith [hzr]
      have hcb : (c : ℝ) ≤ (n : ℝ) := by exact_mod_cast hc
      have hkb : (k : ℝ) ≤ (n : ℝ) := by exact_mod_cast hk
      have hc0 : (0 : ℝ) ≤ (c : ℝ) := Nat.cast_nonneg c
      have hk0 : (0 : ℝ) ≤ (k : ℝ) := Nat.cast_nonneg k
      have hzlt : ((z : ℝ)) < 1 := by nlinarith
      have hzgt : (-1 : ℝ) < (z : ℝ) := by nlinarith
      have hz0 : z = 0 := by
        have h1 : z < 1 := by exact_mod_cast hzlt
        have h2 : -1 < z := by exact_mod_cast hzgt
        omega
      rw [hz0] at hck'
      have : (c : ℝ) = (k : ℝ) := by
        push_cast at hck'
        linarith
      exact hck (by exact_mod_cast this)
    have hgeom : (∑ l ∈ Finset.range (n + 1), x ^ l) * (x - 1) = 0 := by
      rw [geom_sum_mul, hxpow, sub_self]
    have hsum0 : ∑ l ∈ Finset.range (n + 1), x ^ l = 0 := by
      rcases mul_eq_zero.mp hgeom with h | h
      · exact h
      · exact absurd (sub_eq_zero.mp h) hx1
    calc ∑ l ∈ Finset.range (n + 1),
          Complex.exp ((omega n * l : ℝ) * Complex.I) ^ c *
            Complex.exp ((-(omega n * k * l) : ℝ) * Complex.I)
        = ∑ l ∈ Finset.range (n + 1), x ^ l :=
          Finset.sum_congr rfl fun l _ => hterm l
      _ = 0 := hsum0

/-- Main transform identity: the forward DFT of the normalized, mirrored
spectrum recovers exactly the Poisson Binomial point probabilities. -/
theorem xi_eq_pbProb (p : List ℚ) (k : ℕ) (hk : k ≤ p.length) :
    xi p k = ((pbProb p k : ℚ) : ℂ) := by
  classical
  have hN : ((p.length : ℂ) + 1) ≠ 0 := by
    have : ((p.length + 1 : ℕ) : ℂ) ≠ 0 :=
      Nat.cast_ne_zero.mpr (Nat.succ_ne_zero p.length)
    push_cast at this
    exact this
  unfold xi
  calc ∑ l ∈ Finset.range (p.length + 1),
        (chi p l / ((p.length : ℂ) + 1)) *
          Complex.exp ((-(omega p.length * k * l) : ℝ) * Complex.I)
      = ∑ l ∈ Finset.range (p.length + 1),
          ∑ t ∈ (Finset.univ : Finset (Fin p.length)).powerset,
            (((pbWeight p t : ℚ) : ℂ) / ((p.length : ℂ) + 1)) *
              (Complex.exp ((omega p.length * l : ℝ) * Complex.I) ^ t.card *
                Complex.exp ((-(omega p.length * k * l) : ℝ) * Complex.I)) := by
        refine Finset.sum_congr rfl fun l hl => ?_
        rw [chi_eq_prod p l (by
          have := Finset.mem_range.mp hl
          omega), prod_zfac_expand, Finset.sum_div, Finset.sum_mul]
        refine Finset.sum_congr rfl fun t _ => ?_
        ring
    _ = ∑ t ∈ (Finset.univ : Finset (Fin p.length)).powerset,
          (((pbWeight p t : ℚ) : ℂ) / ((p.length : ℂ) + 1)) *
            ∑ l ∈ Finset.range (p.length + 1),
              Complex.exp ((omega p.length * l : ℝ) * Complex.I) ^ t.card *
                Complex.exp ((-(omega p.length * k * l) : ℝ) * Complex.I) := by
        rw [Finset.sum_comm]
        exact Finset.sum_congr rfl fun t _ => by rw [Finset.mul_sum]
    _ = ∑ t ∈ (Finset.univ : Finset (Fin p.length)).powerset,
          if t.card = k then ((pbWeight p t : ℚ) : ℂ) else 0 := by
        refine Finset.sum_congr rfl fun t ht => ?_
        have hcard : t.card ≤ p.length := by
          have := Finset.card_le_card (Finset.mem_powerset.mp ht)
          simpa using this
        rw [exp_orthogonality p.length t.card k hcard hk]
        split
        · rw [div_mul_cancel₀ _ hN]
        · rw [mul_zero]
    _ = ((pbProb p k : ℚ) : ℂ) := by
        unfold pbProb
        rw [Finset.powersetCard_eq_filter, Rat.cast_sum, Finset.sum_filter]

/-- The transform output is exactly real at every in-range index. -/
theorem xi_im_zero (p : List ℚ) (k : ℕ) (hk : k ≤ p.length) :
    (xi p k).im = 0 := by
  rw [xi_eq_pbProb p k hk]
  simp

/-- The stored pmf value is the exact Poisson Binomial probability. -/
theorem pmfVal_eq_pbProb (p : List ℚ) (k : ℕ) (hk : k ≤ p.length) :
    pmfVal p k = ((pbProb p k : ℚ) : ℝ) := by
  unfold pmfVal
  rw [xi_eq_pbProb p k hk]
  simp

/-- In exact arithmetic the reality check of `get_pmf_xi` always passes. -/
theorem checkXiAreReal_xiList (p : List ℚ) : checkXiAreReal (xiList p) := by
  intro x hx
  unfold xiList at hx
  obtain ⟨k, hk, rfl⟩ := List.mem_map.mp hx
  rw [xi_im_zero p k (by
    have := List.mem_range.mp hk
    omega)]
  have : (0 : ℚ) ≤ epsXi := by norm_num [epsXi]
  exact_mod_cast this

/-- Consequently `get_pmf_xi` always returns the real parts. -/
theorem getPmfXi_eq (p : List ℚ) :
    getPmfXi p = .ok ((xiList p).map Complex.re) := by
  unfold getPmfXi
  rw [if_pos (checkXiAreReal_xiList p)]

/-- Every pattern weight is nonnegative on a valid probability vector. -/
theorem pbProb_nonneg (p : List ℚ) (hp : ∀ x ∈ p, 0 ≤ x ∧ x ≤ 1) (k : ℕ) :
    0 ≤ pbProb p k := by
  unfold pbProb
  refine Finset.sum_nonneg fun t _ => ?_
  unfold pbWeight
  have h1 : ∀ j : Fin p.length, 0 ≤ p.get j ∧ p.get j ≤ 1 :=
    fun j => hp (p.get j) (p.get_mem j.1 j.2)
  refine mul_nonneg (Finset.prod_nonneg fun j _ => (h1 j).1)
    (Finset.prod_nonneg fun j _ => ?_)
  have := (h1 j).2
  linarith

/-- The exact point probabilities sum to one (for any real inputs, valid or
not, since each factor contributes p + (1 - p) = 1). -/
theorem sum_pbProb (p : List ℚ) :
    ∑ k ∈ Finset.range (p.length + 1), pbProb p k = 1 := by
  classical
  unfold pbProb
  simp_rw [Finset.powersetCard_eq_filter]
  rw [Finset.sum_fiberwise_of_maps_to (fun t ht => Finset.mem_range.mpr (by
    have := Finset.card_le_card (Finset.mem_powerset.mp ht)
    simpa [Nat.lt_succ_iff] using this))]
  have hexp := Finset.prod_add (fun j : Fin p.length => p.get j)
    (fun j => 1 - p.get j) Finset.univ
  have hone : (∏ j : Fin p.length, (p.get j + (1 - p.get j))) = 1 :=
    Finset.prod_eq_one fun j _ => by ring
  calc ∑ t ∈ (Finset.univ : Finset (Fin p.length)).powerset, pbWeight p t
      = ∑ t ∈ (Finset.univ : Finset (Fin p.length)).powerset,
          (∏ i ∈ t, p.get i) * ∏ i ∈ Finset.univ \ t, (1 - p.get i) :=
        Finset.sum_congr rfl fun t _ => by
          unfold pbWeight
          rw [Finset.compl_eq_univ_sdiff]
    _ = 1 := by rw [← hexp, hone]

/-- Sum of a function mapped over an initial segment of the naturals, as a
finite-set sum. -/
theorem list_range_map_sum (f : ℕ → ℝ) (N : ℕ) :
    ((List.range N).map f).sum = ∑ k ∈ Finset.range N, f k := by
  induction N with
  | zero => simp
  | succ n ih =>
    rw [List.range_succ, List.map_append, List.sum_append,
      Finset.sum_range_succ, ih]
    simp

/-- Characterization of `check_input_prob`: it accepts exactly the valid
inputs. -/
theorem checkInputProb_eq_none_iff (a : NDArray) :
    checkInputProb a = none ↔ validInput a := by
  unfold checkInputProb validInput
  split
  · rename_i h
    simp only [reduceCtorEq, false_iff]
    intro hv
    exact h hv.1
  · rename_i h
    push_neg at h
    split
    · rename_i h0
      simp only [reduceCtorEq, false_iff]
      intro hv
      exact h0 fun x hx => (hv.2 x hx).1
    · rename_i h0
      push_neg at h0
      split
      · rename_i h1
        simp only [reduceCtorEq, false_iff]
        intro hv
        exact h1 fun x hx => (hv.2 x hx).2
      · rename_i h1
        push_neg at h1
        simp only [true_iff]
        exact ⟨h, fun x hx => ⟨h0 x hx, h1 x hx⟩⟩

/-- On an accepted input the constructor returns the distribution object. -/
theorem construct_ok (a : NDArray) (h : validInput a) :
    construct a = .ok ⟨a.data⟩ := by
  unfold construct
  rw [(checkInputProb_eq_none_iff a).mpr h, getPmfXi_eq]

/-- On a rejected input the constructor propagates the validation error. -/
theorem construct_error (a : NDArray) (e : PBError)
    (h : checkInputProb a = some e) : construct a = .error e := by
  unfold construct
  rw [h]

/-- Characterization of the scalar branch of `check_rv_input`. -/
theorem checkRvScalar_eq_none_iff (n : ℕ) (k : PyNum) :
    checkRvScalar n k = none ↔ rvScalarValid n k := by
  unfold checkRvScalar rvScalarValid
  by_cases h1 : k.acceptedType = true
  · rw [if_neg (by simp [h1])]
    by_cases h2 : k.value < 0
    · rw [if_pos h2]
      simp only [reduceCtorEq, false_iff]
      intro hv
      linarith [hv.2.1]
    · rw [if_neg h2]
      by_cases h3 : (n : ℚ) < k.value
      · rw [if_pos h3]
        simp only [reduceCtorEq, false_iff]
        intro hv
        linarith [hv.2.2]
      · rw [if_neg h3]
        simp only [true_iff]
        exact ⟨h1, le_of_not_lt h2, le_of_not_lt h3⟩
  · rw [if_pos (by simp [h1])]
    simp only [reduceCtorEq, false_iff]
    intro hv
    exact h1 hv.1

/-- Characterization of the sequence branch of `check_rv_input`. -/
theorem checkRvList_eq_none_iff (n : ℕ) (ks : List PyNum) :
    checkRvList n ks = none ↔ ∀ k ∈ ks, rvScalarValid n k := by
  induction ks with
  | nil => simp [checkRvList]
  | cons k ks ih =>
    unfold checkRvList
    by_cases h1 : k.acceptedType = true
    · rw [if_neg (by simp [h1])]
      by_cases h2 : k.value < 0
      · rw [if_pos h2]
        simp only [reduceCtorEq, false_iff]
        intro hv
        have := (hv k (List.mem_cons_self k ks)).2.1
        linarith
      · rw [if_neg h2]
        by_cases h3 : (n : ℚ) < k.value
        · rw [if_pos h3]
          simp only [reduceCtorEq, false_iff]
          intro hv
          have := (hv k (List.mem_cons_self k ks)).2.2
          linarith
        · rw [if_neg h3, ih]
          constructor
          · intro hall k' hk'
            rcases List.mem_cons.mp hk' with rfl | hmem
            · exact ⟨h1, le_of_not_lt h2, le_of_not_lt h3⟩
            · exact hall k' hmem
          · intro hall k' hk'
            exact hall k' (List.mem_cons_of_mem k hk')
    · rw [if_pos (by simp [h1])]
      simp only [reduceCtorEq, false_iff]
      intro hv
      exact h1 (hv k (List.mem_cons_self k ks)).1

/-- Characterization of `check_rv_input` on either shape of input. -/
theorem checkRvInput_eq_none_iff (n : ℕ) (kk : RVInput) :
    checkRvInput n kk = none ↔ rvValid n kk := by
  rcases kk with k | ks
  · exact checkRvScalar_eq_none_iff n k
  · exact checkRvList_eq_none_iff n ks

/-- Every failure of the scalar query check is an invalid-input error. -/
theorem checkRvScalar_error_invalid (n : ℕ) (k : PyNum) (e : PBError)
    (h : checkRvScalar n k = some e) : ∃ msg, e = .invalidInput msg := by
  unfold checkRvScalar at h
  split at h
  · injection h with h
    exact ⟨_, h.symm⟩
  · split at h
    · injection h with h
      exact ⟨_, h.symm⟩
    · split at h
      · injection h with h
        exact ⟨_, h.symm⟩
      · exact Option.noConfusion h

/-- Every failure of the sequence query check is an invalid-input error. -/
theorem checkRvList_error_invalid (n : ℕ) (ks : List PyNum) (e : PBError)
    (h : checkRvList n ks = some e) : ∃ msg, e = .invalidInput msg := by
  induction ks with
  | nil => exact Option.noConfusion h
  | cons k ks ih =>
    unfold checkRvList at h
    split at h
    · injection h with h
      exact ⟨_, h.symm⟩
    · split at h
      · injection h with h
        exact ⟨_, h.symm⟩
      · split at h
        · injection h with h
          exact ⟨_, h.symm⟩
        · exact ih h

/-- Every failure of `check_rv_input` is an invalid-input error. -/
theorem checkRvInput_error_invalid (n : ℕ) (kk : RVInput) (e : PBError)
    (h : checkRvInput n kk = some e) : ∃ msg, e = .invalidInput msg := by
  rcases kk with k | ks
  · exact checkRvScalar_error_invalid n k e h
  · exact checkRvList_error_invalid n ks e h

/-- The pmf query on a validated scalar is the vector lookup. -/
theorem pmfQuery_inl_eq (d : Dist) (k : PyNum) (h : rvScalarValid d.n k) :
    pmfQuery d (.inl k) = .ok (.inl (pmfVal d.p k.idx)) := by
  unfold pmfQuery
  rw [show checkRvInput d.n (.inl k) = none from
    (checkRvScalar_eq_none_iff d.n k).mpr h]

/-- The pmf query on a validated sequence maps the lookup over it. -/
theorem pmfQuery_inr_eq (d : Dist) (ks : List PyNum)
    (h : ∀ k ∈ ks, rvScalarValid d.n k) :
    pmfQuery d (.inr ks) = .ok (.inr (ks.map fun k => pmfVal d.p k.idx)) := by
  unfold pmfQuery
  rw [show checkRvInput d.n (.inr ks) = none from
    (checkRvList_eq_none_iff d.n ks).mpr h]

/-- The cdf query on a validated scalar is the vector lookup. -/
theorem cdfQuery_inl_eq (d : Dist) (k : PyNum) (h : rvScalarValid d.n k) :
    cdfQuery d (.inl k) = .ok (.inl (cdfVal d.p k.idx)) := by
  unfold cdfQuery
  rw [show checkRvInput d.n (.inl k) = none from
    (checkRvScalar_eq_none_iff d.n k).mpr h]

/-- The cdf query on a validated sequence maps the lookup over it. -/
theorem cdfQuery_inr_eq (d : Dist) (ks : List PyNum)
    (h : ∀ k ∈ ks, rvScalarValid d.n k) :
    cdfQuery d (.inr ks) = .ok (.inr (ks.map fun k => cdfVal d.p k.idx)) := by
  unfold cdfQuery
  rw [show checkRvInput d.n (.inr ks) = none from
    (checkRvList_eq_none_iff d.n ks).mpr h]

/-- The p-value query on a validated scalar takes the scalar branch. -/
theorem pvalQuery_inl_eq (d : Dist) (k : PyNum) (h : rvScalarValid d.n k) :
    pvalQuery d (.inl k) =
      .ok (.inl (if k.idx = 0 then 1 else 1 - cdfVal d.p (k.idx - 1))) := by
  unfold pvalQuery
  rw [show checkRvInput d.n (.inl k) = none from
    (checkRvScalar_eq_none_iff d.n k).mpr h]

/-- The p-value query on a validated sequence takes the elementwise branch. -/
theorem pvalQuery_inr_eq (d : Dist) (ks : List PyNum)
    (h : ∀ k ∈ ks, rvScalarValid d.n k) :
    pvalQuery d (.inr ks) =
      .ok (.inr (ks.map fun k => 1 - cdfVal d.p k.idx + pmfVal d.p k.idx)) := by
  unfold pvalQuery
  rw [show checkRvInput d.n (.inr ks) = none from
    (checkRvList_eq_none_iff d.n ks).mpr h]

/-- A failing query check propagates as the pmf query error. -/
theorem pmfQuery_error_of_check (d : Dist) (kk : RVInput) (e : PBError)
    (h : checkRvInput d.n kk = some e) : pmfQuery d kk = .error e := by
  unfold pmfQuery
  rw [h]

/-- A failing query check propagates as the cdf query error. -/
theorem cdfQuery_error_of_check (d : Dist) (kk : RVInput) (e : PBError)
    (h : checkRvInput d.n kk = some e) : cdfQuery d kk = .error e := by
  unfold cdfQuery
  rw [h]

/-- A failing query check propagates as the p-value query error. -/
theorem pvalQuery_error_of_check (d : Dist) (kk : RVInput) (e : PBError)
    (h : checkRvInput d.n kk = some e) : pvalQuery d kk = .error e := by
  unfold pvalQuery
  rw [h]

/-- A pmf query error can only come from the query check. -/
theorem pmfQuery_error_elim (d : Dist) (kk : RVInput) (e : PBError)
    (h : pmfQuery d kk = .error e) : checkRvInput d.n kk = some e := by
  unfold pmfQuery at h
  rcases hc : checkRvInput d.n kk with _ | e'
  · rw [hc] at h
    rcases kk with k | ks <;> exact Except.noConfusion h
  · rw [hc] at h
    injection h with h
    rw [h]

/-- The pmf query errors exactly on the inputs the check rejects. -/
theorem pmfQuery_error_iff (d : Dist) (kk : RVInput) :
    (∃ e, pmfQuery d kk = .error e) ↔ ¬ rvValid d.n kk := by
  constructor
  · rintro ⟨e, he⟩
    intro hv
    have hnone := (checkRvInput_eq_none_iff d.n kk).mpr hv
    rw [pmfQuery_error_elim d kk e he] at hnone
    exact Option.noConfusion hnone
  · intro hnv
    rcases hc : checkRvInput d.n kk with _ | e
    · exact absurd ((checkRvInput_eq_none_iff d.n kk).mp hc) hnv
    · exact ⟨e, pmfQuery_error_of_check d kk e hc⟩

/-- The cdf query errors exactly on the inputs the check rejects. -/
theorem cdfQuery_error_iff (d : Dist) (kk : RVInput) :
    (∃ e, cdfQuery d kk = .error e) ↔ ¬ rvValid d.n kk := by
  constructor
  · rintro ⟨e, he⟩
    intro hv
    have hnone := (checkRvInput_eq_none_iff d.n kk).mpr hv
    unfold cdfQuery at he
    rw [hnone] at he
    rcases kk with k | ks <;> exact Except.noConfusion he
  · intro hnv
    rcases hc : checkRvInput d.n kk with _ | e
    · exact absurd ((checkRvInput_eq_none_iff d.n kk).mp hc) hnv
    · exact ⟨e, cdfQuery_error_of_check d kk e hc⟩

/-- The p-value query errors exactly on the inputs the check rejects. -/
theorem pvalQuery_error_iff (d : Dist) (kk : RVInput) :
    (∃ e, pvalQuery d kk = .error e) ↔ ¬ rvValid d.n kk := by
  constructor
  · rintro ⟨e, he⟩
    intro hv
    have hnone := (checkRvInput_eq_none_iff d.n kk).mpr hv
    unfold pvalQuery at he
    rw [hnone] at he
    rcases kk with k | ks <;> exact Except.noConfusion he
  · intro hnv
    rcases hc : checkRvInput d.n kk with _ | e
    · exact absurd ((checkRvInput_eq_none_iff d.n kk).mp hc) hnv
    · exact ⟨e, pvalQuery_error_of_check d kk e hc⟩

/-- Every failure of the construction-time check is an invalid-input error. -/
theorem checkInputProb_error_invalid (a : NDArray) (e : PBError)
    (h : checkInputProb a = some e) : ∃ msg, e = .invalidInput msg := by
  unfold checkInputProb at h
  split at h
  · injection h with h
    exact ⟨_, h.symm⟩
  · split at h
    · injection h with h
      exact ⟨_, h.symm⟩
    · split at h
      · injection h with h
        exact ⟨_, h.symm⟩
      · exact Option.noConfusion h

/-- A shape failure produces the one-dimensionality message. -/
theorem checkInputProb_shape (a : NDArray) (h : a.shape ≠ [a.data.length]) :
    checkInputProb a =
      some (.invalidInput ("Input must be an one-dimensional array or a list.")) := by
  unfold checkInputProb
  rw [if_pos h]

/-- A negative element (with correct shape) produces the nonnegativity
message. -/
theorem checkInputProb_neg (a : NDArray) (hs : a.shape = [a.data.length])
    (h : ∃ x ∈ a.data, x < 0) :
    checkInputProb a =
      some (.invalidInput ("Input probabilites have to be non negative.")) := by
  unfold checkInputProb
  rw [if_neg (by simp [hs])]
  rw [if_pos]
  push_neg
  obtain ⟨x, hx, hlt⟩ := h
  exact ⟨x, hx, hlt⟩

/-- An element above one (with correct shape, none negative) produces the
upper-bound message. -/
theorem checkInputProb_big (a : NDArray) (hs : a.shape = [a.data.length])
    (h0 : ∀ x ∈ a.data, 0 ≤ x) (h : ∃ x ∈ a.data, 1 < x) :
    checkInputProb a =
      some (.invalidInput ("Input probabilites have to be smaller than 1.")) := by
  unfold checkInputProb
  rw [if_neg (by simp [hs])]
  rw [if_neg (by push_neg; exact h0)]
  rw [if_pos]
  push_neg
  obtain ⟨x, hx, hlt⟩ := h
  exact ⟨x, hx, hlt⟩

/-!
Claim theorems.
-/

/-- C1: For every valid probability vector p (flat, length at least 1, every
element in [0,1]) the probability mass vector computed at construction has
every entry at least -eps and sums to 1 within eps, for eps = 1e-9.  In the
exact-arithmetic embedding the entries are nonnegative and the sum is exactly
1, which is within the stated tolerance. -/
theorem pmf_vector_nonneg_and_sums_to_one (p : List ℚ) (_hlen : 1 ≤ p.length)
    (hp : ∀ x ∈ p, 0 ≤ x ∧ x ≤ 1) :
    ∃ xs : List ℝ, getPmfXi p = .ok xs ∧ xs.length = p.length + 1 ∧
      (∀ v ∈ xs, -(1e-9 : ℝ) ≤ v) ∧ |xs.sum - 1| ≤ (1e-9 : ℝ) := by
  have heps : (0 : ℝ) ≤ (1e-9 : ℝ) := by norm_num
  refine ⟨(xiList p).map Complex.re, getPmfXi_eq p, ?_, ?_, ?_⟩
  · simp [xiList]
  · intro v hv
    obtain ⟨x, hx, rfl⟩ := List.mem_map.mp hv
    obtain ⟨k, hk, rfl⟩ := List.mem_map.mp hx
    have hk' : k ≤ p.length := by
      have := List.mem_range.mp hk
      omega
    have h1 : (xi p k).re = ((pbProb p k : ℚ) : ℝ) := pmfVal_eq_pbProb p k hk'
    have h0 : (0 : ℚ) ≤ pbProb p k := pbProb_nonneg p hp k
    have h2 : (0 : ℝ) ≤ ((pbProb p k : ℚ) : ℝ) := by exact_mod_cast h0
    rw [h1]
    linarith
  · have hsum : ((xiList p).map Complex.re).sum =
        ∑ k ∈ Finset.range (p.length + 1), pmfVal p k := by
      unfold xiList
      rw [List.map_map]
      exact list_range_map_sum (fun k => (xi p k).re) (p.length + 1)
    have hsum2 : ∑ k ∈ Finset.range (p.length + 1), pmfVal p k = 1 := by
      calc ∑ k ∈ Finset.range (p.length + 1), pmfVal p k
          = ∑ k ∈ Finset.range (p.length + 1), ((pbProb p k : ℚ) : ℝ) :=
            Finset.sum_congr rfl fun k hk => pmfVal_eq_pbProb p k (by
              have := Finset.mem_range.mp hk
              omega)
        _ = (((∑ k ∈ Finset.range (p.length + 1), pbProb p k : ℚ)) : ℝ) :=
            (Rat.cast_sum _ _).symm
        _ = 1 := by rw [sum_pbProb]; norm_num
    rw [hsum, hsum2]
    norm_num

/-- C1 witness at the concrete vector [1/2]. -/
theorem pmf_vector_nonneg_and_sums_to_one_witness :
    (1 ≤ ([(1 : ℚ)/2]).length) ∧ (∀ x ∈ [(1 : ℚ)/2], 0 ≤ x ∧ x ≤ 1) ∧
      ∃ xs : List ℝ, getPmfXi [(1 : ℚ)/2] = .ok xs ∧
        xs.length = ([(1 : ℚ)/2]).length + 1 ∧
        (∀ v ∈ xs, -(1e-9 : ℝ) ≤ v) ∧ |xs.sum - 1| ≤ (1e-9 : ℝ) :=
  ⟨by norm_num, by norm_num,
    pmf_vector_nonneg_and_sums_to_one [(1 : ℚ)/2] (by norm_num) (by norm_num)⟩

/-- C2 counterexample: the reality guard of `get_pmf_xi` is one-sided.  On a
transform output whose single entry has imaginary part -1 (magnitude far above
the 1e-15 tolerance) the guard accepts, so raising is not equivalent to some
entry having imaginary part of magnitude above the tolerance. -/
theorem reality_guard_not_magnitude_based :
    ¬ ((¬ checkXiAreReal [(⟨0, -1⟩ : ℂ)]) ↔
      ∃ x ∈ [(⟨0, -1⟩ : ℂ)], (epsXi : ℝ) < |x.im|) := by
  intro h
  have h1 : checkXiAreReal [(⟨0, -1⟩ : ℂ)] := by
    intro x hx
    rw [List.mem_singleton.mp hx]
    show (-1 : ℝ) ≤ (epsXi : ℝ)
    norm_num [epsXi]
  have h2 : ∃ x ∈ [(⟨0, -1⟩ : ℂ)], (epsXi : ℝ) < |x.im| := by
    refine ⟨_, List.mem_singleton_self _, ?_⟩
    show (epsXi : ℝ) < |(-1 : ℝ)|
    norm_num [epsXi]
  exact (h.mpr h2) h1

/-- C2 amended: the guard tests the signed imaginary part against +1e-15, so
construction raises the numerical-integrity error exactly when some transform
output entry has imaginary part strictly above +1e-15 (entries with arbitrarily
negative imaginary part are accepted); otherwise the real parts are taken as
the probability mass vector.  In exact arithmetic the raise never happens. -/
theorem reality_guard_signed_iff (p : List ℚ) (xs : List ℂ) :
    ((¬ checkXiAreReal xs) ↔ ∃ x ∈ xs, (epsXi : ℝ) < x.im) ∧
    ((∃ msg, getPmfXi p = .error (.numericalIntegrity msg)) ↔
      ∃ x ∈ xiList p, (epsXi : ℝ) < x.im) ∧
    getPmfXi p = .ok ((xiList p).map Complex.re) := by
  refine ⟨?_, ⟨?_, ?_⟩, getPmfXi_eq p⟩
  · unfold checkXiAreReal
    push_neg
    rfl
  · rintro ⟨msg, hmsg⟩
    rw [getPmfXi_eq] at hmsg
    exact Except.noConfusion hmsg
  · rintro ⟨x, hx, hgt⟩
    have := checkXiAreReal_xiList p x hx
    linarith

/-- C5: after the builder fills chi[0], the first half and the mirrored
second half, the spectrum satisfies conjugate symmetry
chi[n+1-l] = conj(chi[l]) for every l in [1,n], and the symmetry survives
dividing every entry by n+1. -/
theorem chi_conjugate_symmetry (p : List ℚ) (l : ℕ) (h1 : 1 ≤ l)
    (h2 : l ≤ p.length) :
    chi p (p.length + 1 - l) = (starRingEnd ℂ) (chi p l) ∧
    chi p (p.length + 1 - l) / ((p.length : ℂ) + 1) =
      (starRingEnd ℂ) (chi p l / ((p.length : ℂ) + 1)) := by
  have hml : p.length + 1 - l ≤ p.length := by omega
  have hmain : chi p (p.length + 1 - l) = (starRingEnd ℂ) (chi p l) := by
    rw [chi_eq_prod p _ hml, chi_eq_prod p l h2,
      zfac_prod_conj p l (p.length + 1 - l) (by omega)]
  refine ⟨hmain, ?_⟩
  rw [map_div₀, hmain]
  congr 1
  rw [map_add, map_one, map_natCast]

/-- C5 witness at the concrete vector [1/2] and frequency 1. -/
theorem chi_conjugate_symmetry_witness :
    (1 ≤ 1 ∧ 1 ≤ ([(1 : ℚ)/2]).length) ∧
      (chi [(1 : ℚ)/2] (([(1 : ℚ)/2]).length + 1 - 1) =
          (starRingEnd ℂ) (chi [(1 : ℚ)/2] 1) ∧
        chi [(1 : ℚ)/2] (([(1 : ℚ)/2]).length + 1 - 1) /
            ((([(1 : ℚ)/2]).length : ℂ) + 1) =
          (starRingEnd ℂ) (chi [(1 : ℚ)/2] 1 / ((([(1 : ℚ)/2]).length : ℂ) + 1))) :=
  ⟨⟨le_refl 1, by norm_num⟩,
    chi_conjugate_symmetry [(1 : ℚ)/2] 1 (le_refl 1) (by norm_num)⟩

/-- C3: on every valid distribution and scalar integer k in [0,n], the p-value
query returns exactly 1 at k = 0, and 1 - cdf(k-1) for k greater than 0. -/
theorem pval_scalar_cases (d : Dist) (_hd : ∀ x ∈ d.p, 0 ≤ x ∧ x ≤ 1)
    (k : ℤ) (hk0 : 0 ≤ k) (hkn : k ≤ (d.n : ℤ)) :
    pvalQuery d (.inl (.int 0)) = .ok (.inl 1) ∧
    (1 ≤ k → pvalQuery d (.inl (.int k)) =
      .ok (.inl (1 - cdfVal d.p (k.toNat - 1)))) := by
  constructor
  · have hv : rvScalarValid d.n (PyNum.int 0) := by
      refine ⟨rfl, ?_, ?_⟩
      · show (0 : ℚ) ≤ ((0 : ℤ) : ℚ)
        norm_num
      · show ((0 : ℤ) : ℚ) ≤ (d.n : ℚ)
        exact_mod_cast Nat.zero_le d.n
    rw [pvalQuery_inl_eq d _ hv]
    norm_num [PyNum.idx]
  · intro hk1
    have hv : rvScalarValid d.n (PyNum.int k) := by
      refine ⟨rfl, ?_, ?_⟩
      · show (0 : ℚ) ≤ ((k : ℤ) : ℚ)
        exact_mod_cast hk0
      · show ((k : ℤ) : ℚ) ≤ (d.n : ℚ)
        exact_mod_cast hkn
    rw [pvalQuery_inl_eq d _ hv]
    have hidx : (PyNum.int k).idx = k.toNat := rfl
    rw [hidx, if_neg (by omega)]

/-- C3 witness at the distribution over [1/2] and k = 1. -/
theorem pval_scalar_cases_witness :
    ((∀ x ∈ [(1 : ℚ)/2], 0 ≤ x ∧ x ≤ 1) ∧ (0 ≤ (1 : ℤ)) ∧
        ((1 : ℤ) ≤ (Dist.n ⟨[(1 : ℚ)/2]⟩ : ℤ))) ∧
      (pvalQuery ⟨[(1 : ℚ)/2]⟩ (.inl (.int 0)) = .ok (.inl 1) ∧
        (1 ≤ (1 : ℤ) → pvalQuery ⟨[(1 : ℚ)/2]⟩ (.inl (.int 1)) =
          .ok (.inl (1 - cdfVal [(1 : ℚ)/2] ((1 : ℤ).toNat - 1))))) :=
  ⟨⟨by norm_num, by norm_num, by norm_num [Dist.n]⟩,
    pval_scalar_cases ⟨[(1 : ℚ)/2]⟩ (by norm_num) 1 (by norm_num)
      (by norm_num [Dist.n])⟩

/-- C4: the sequence path of pval computes 1 - cdf(k) + pmf(k) elementwise;
because the cdf is the prefix sum of the pmf, this equals the scalar path
value 1 - cdf(k-1) for every k at least 1 (exactly, hence within any
tolerance), and the batch and scalar paths agree at every valid k, including
k = 0 where both give 1. -/
theorem pval_batch_matches_scalar (d : Dist) (_hd : ∀ x ∈ d.p, 0 ≤ x ∧ x ≤ 1)
    (ks : List PyNum) (h : ∀ k ∈ ks, rvScalarValid d.n k) :
    pvalQuery d (.inr ks) =
      .ok (.inr (ks.map fun k => 1 - cdfVal d.p k.idx + pmfVal d.p k.idx)) ∧
    (∀ k : ℕ, 1 ≤ k →
      1 - cdfVal d.p k + pmfVal d.p k = 1 - cdfVal d.p (k - 1)) ∧
    (∀ k ∈ ks, pvalQuery d (.inl k) =
      .ok (.inl (1 - cdfVal d.p k.idx + pmfVal d.p k.idx))) := by
  refine ⟨pvalQuery_inr_eq d ks h, ?_, ?_⟩
  · intro k hk
    obtain ⟨m, rfl⟩ : ∃ m, k = m + 1 := ⟨k - 1, by omega⟩
    simp only [Nat.add_sub_cancel]
    rw [show cdfVal d.p (m + 1) = cdfVal d.p m + pmfVal d.p (m + 1) from rfl]
    ring
  · intro k hk
    rw [pvalQuery_inl_eq d k (h k hk)]
    have hval : (if k.idx = 0 then (1 : ℝ) else 1 - cdfVal d.p (k.idx - 1)) =
        1 - cdfVal d.p k.idx + pmfVal d.p k.idx := by
      by_cases h0 : k.idx = 0
      · rw [if_pos h0, h0]
        rw [show cdfVal d.p 0 = pmfVal d.p 0 from rfl]
        ring
      · rw [if_neg h0]
        obtain ⟨m, hm⟩ : ∃ m, k.idx = m + 1 := ⟨k.idx - 1, by omega⟩
        rw [hm]
        simp only [Nat.add_sub_cancel]
        rw [show cdfVal d.p (m + 1) = cdfVal d.p m + pmfVal d.p (m + 1) from rfl]
        ring
    rw [hval]

/-- C4 witness at the distribution over [1/2] and the batch [0, 1]. -/
theorem pval_batch_matches_scalar_witness :
    ((∀ x ∈ [(1 : ℚ)/2], 0 ≤ x ∧ x ≤ 1) ∧
        (∀ k ∈ [PyNum.int 0, PyNum.int 1],
          rvScalarValid (Dist.n ⟨[(1 : ℚ)/2]⟩) k)) ∧
      (pvalQuery ⟨[(1 : ℚ)/2]⟩ (.inr [PyNum.int 0, PyNum.int 1]) =
          .ok (.inr (([PyNum.int 0, PyNum.int 1]).map fun k =>
            1 - cdfVal [(1 : ℚ)/2] k.idx + pmfVal [(1 : ℚ)/2] k.idx)) ∧
        (∀ k : ℕ, 1 ≤ k →
          1 - cdfVal [(1 : ℚ)/2] k + pmfVal [(1 : ℚ)/2] k =
            1 - cdfVal [(1 : ℚ)/2] (k - 1)) ∧
        (∀ k ∈ [PyNum.int 0, PyNum.int 1],
          pvalQuery ⟨[(1 : ℚ)/2]⟩ (.inl k) =
            .ok (.inl (1 - cdfVal [(1 : ℚ)/2] k.idx + pmfVal [(1 : ℚ)/2] k.idx)))) :=
  ⟨⟨by norm_num, by decide⟩,
    pval_batch_matches_scalar ⟨[(1 : ℚ)/2]⟩ (by norm_num)
      [PyNum.int 0, PyNum.int 1] (by decide)⟩

/-- C6: construction raises an invalid-input error exactly when the input is
not a flat one-dimensional vector of values in [0,1]; the message names the
violated condition (shape, negativity, exceeding one, checked in this order);
on success the distribution object exists and all three derived vectors (the
spectrum is a total function of the stored vector, the pmf vector of length
n+1, the cdf prefix sums) are populated. -/
theorem construction_validation (a : NDArray) :
    ((∃ msg, construct a = .error (.invalidInput msg)) ↔ ¬ validInput a) ∧
    (a.shape ≠ [a.data.length] →
      construct a = .error (.invalidInput
        ("Input must be an one-dimensional array or a list."))) ∧
    (a.shape = [a.data.length] → (∃ x ∈ a.data, x < 0) →
      construct a = .error (.invalidInput
        ("Input probabilites have to be non negative."))) ∧
    (a.shape = [a.data.length] → (∀ x ∈ a.data, 0 ≤ x) → (∃ x ∈ a.data, 1 < x) →
      construct a = .error (.invalidInput
        ("Input probabilites have to be smaller than 1."))) ∧
    (validInput a → construct a = .ok ⟨a.data⟩ ∧
      getPmfXi a.data = .ok ((xiList a.data).map Complex.re) ∧
      ((xiList a.data).map Complex.re).length = a.data.length + 1 ∧
      cdfVal a.data 0 = pmfVal a.data 0 ∧
      (∀ k : ℕ, cdfVal a.data (k + 1) = cdfVal a.data k + pmfVal a.data (k + 1))) := by
  refine ⟨⟨?_, ?_⟩, ?_, ?_, ?_, ?_⟩
  · rintro ⟨msg, hmsg⟩
    intro hv
    rw [construct_ok a hv] at hmsg
    exact Except.noConfusion hmsg
  · intro hnv
    have hne : checkInputProb a ≠ none := fun hnone =>
      hnv ((checkInputProb_eq_none_iff a).mp hnone)
    obtain ⟨e, he⟩ := Option.ne_none_iff_exists'.mp hne
    obtain ⟨msg, rfl⟩ := checkInputProb_error_invalid a e he
    exact ⟨msg, construct_error a _ he⟩
  · intro h
    exact construct_error a _ (checkInputProb_shape a h)
  · intro hs h
    exact construct_error a _ (checkInputProb_neg a hs h)
  · intro hs h0 h
    exact construct_error a _ (checkInputProb_big a hs h0 h)
  · intro hv
    refine ⟨construct_ok a hv, getPmfXi_eq a.data, ?_, rfl, fun k => rfl⟩
    simp [xiList]

/-- C7 counterexample: on the constructed distribution over [1/2] (n = 1),
the value 1 carried as a numpy int32 is a true integer value inside [0,n],
yet the pmf query raises; moreover the out-of-range message is the same fixed
string (mentioning n, not the offending value) for the offending values 5 and
7, so the error does not identify the offending value. -/
theorem query_validation_counterexample :
    construct ⟨[1], [(1 : ℚ)/2]⟩ = .ok ⟨[(1 : ℚ)/2]⟩ ∧
    PyNum.isIntegerValued (.int32 1) = true ∧
    0 ≤ (PyNum.int32 1).value ∧
    (PyNum.int32 1).value ≤ ((Dist.n ⟨[(1 : ℚ)/2]⟩ : ℕ) : ℚ) ∧
    pmfQuery ⟨[(1 : ℚ)/2]⟩ (.inl (.int32 1)) =
      .error (.invalidInput ("Input value must be an integer.")) ∧
    pmfQuery ⟨[(1 : ℚ)/2]⟩ (.inl (.int 5)) =
      .error (.invalidInput ("Input value cannot be greater than 1")) ∧
    pmfQuery ⟨[(1 : ℚ)/2]⟩ (.inl (.int 7)) =
      .error (.invalidInput ("Input value cannot be greater than 1")) :=
  ⟨construct_ok _ (by refine ⟨rfl, ?_⟩; norm_num), rfl, by decide, by decide,
    pmfQuery_error_of_check _ _ _ (by decide),
    pmfQuery_error_of_check _ _ _ (by decide),
    pmfQuery_error_of_check _ _ _ (by decide)⟩

/-- C7 amended: each query (pmf, cdf, pval), on a scalar or a sequence,
raises an invalid-input error exactly when some requested value fails the
runtime type test (exactly int or numpy int64) or lies outside [0,n]; every
such error is of the invalid-input kind, with a fixed message naming the
violated condition rather than the offending value. -/
theorem query_validation_error_iff (d : Dist) (kk : RVInput) :
    ((∃ e, pmfQuery d kk = .error e) ↔ ¬ rvValid d.n kk) ∧
    ((∃ e, cdfQuery d kk = .error e) ↔ ¬ rvValid d.n kk) ∧
    ((∃ e, pvalQuery d kk = .error e) ↔ ¬ rvValid d.n kk) ∧
    (∀ e, pmfQuery d kk = .error e → ∃ msg, e = .invalidInput msg) :=
  ⟨pmfQuery_error_iff d kk, cdfQuery_error_iff d kk, pvalQuery_error_iff d kk,
    fun e he => checkRvInput_error_invalid d.n kk e (pmfQuery_error_elim d kk e he)⟩

/-- C8: on a sequence of valid integers the pmf query equals the sequence of
independent scalar evaluations, preserving order and length, and likewise for
the cdf query. -/
theorem batch_queries_elementwise (d : Dist) (_hd : ∀ x ∈ d.p, 0 ≤ x ∧ x ≤ 1)
    (ks : List PyNum) (h : ∀ k ∈ ks, rvScalarValid d.n k) :
    pmfQuery d (.inr ks) = .ok (.inr (ks.map fun k => pmfVal d.p k.idx)) ∧
    (∀ k ∈ ks, pmfQuery d (.inl k) = .ok (.inl (pmfVal d.p k.idx))) ∧
    (ks.map fun k => pmfVal d.p k.idx).length = ks.length ∧
    cdfQuery d (.inr ks) = .ok (.inr (ks.map fun k => cdfVal d.p k.idx)) ∧
    (∀ k ∈ ks, cdfQuery d (.inl k) = .ok (.inl (cdfVal d.p k.idx))) ∧
    (ks.map fun k => cdfVal d.p k.idx).length = ks.length :=
  ⟨pmfQuery_inr_eq d ks h, fun k hk => pmfQuery_inl_eq d k (h k hk),
    by simp, cdfQuery_inr_eq d ks h,
    fun k hk => cdfQuery_inl_eq d k (h k hk), by simp⟩

/-- C8 witness at the distribution over [1/2] and the batch [1, 0]. -/
theorem batch_queries_elementwise_witness :
    ((∀ x ∈ [(1 : ℚ)/2], 0 ≤ x ∧ x ≤ 1) ∧
        (∀ k ∈ [PyNum.int 1, PyNum.int 0],
          rvScalarValid (Dist.n ⟨[(1 : ℚ)/2]⟩) k)) ∧
      (pmfQuery ⟨[(1 : ℚ)/2]⟩ (.inr [PyNum.int 1, PyNum.int 0]) =
          .ok (.inr (([PyNum.int 1, PyNum.int 0]).map fun k =>
            pmfVal [(1 : ℚ)/2] k.idx)) ∧
        (∀ k ∈ [PyNum.int 1, PyNum.int 0],
          pmfQuery ⟨[(1 : ℚ)/2]⟩ (.inl k) = .ok (.inl (pmfVal [(1 : ℚ)/2] k.idx))) ∧
        (([PyNum.int 1, PyNum.int 0]).map fun k =>
          pmfVal [(1 : ℚ)/2] k.idx).length = ([PyNum.int 1, PyNum.int 0]).length ∧
        cdfQuery ⟨[(1 : ℚ)/2]⟩ (.inr [PyNum.int 1, PyNum.int 0]) =
          .ok (.inr (([PyNum.int 1, PyNum.int 0]).map fun k =>
            cdfVal [(1 : ℚ)/2] k.idx)) ∧
        (∀ k ∈ [PyNum.int 1, PyNum.int 0],
          cdfQuery ⟨[(1 : ℚ)/2]⟩ (.inl k) = .ok (.inl (cdfVal [(1 : ℚ)/2] k.idx))) ∧
        (([PyNum.int 1, PyNum.int 0]).map fun k =>
          cdfVal [(1 : ℚ)/2] k.idx).length = ([PyNum.int 1, PyNum.int 0]).length) :=
  ⟨⟨by norm_num, by decide⟩,
    batch_queries_elementwise ⟨[(1 : ℚ)/2]⟩ (by norm_num)
      [PyNum.int 1, PyNum.int 0] (by decide)⟩

/-- C9: the empty input vector (n = 0) passes validation vacuously, the
construction succeeds, the pmf vector is [1], the cdf value at 0 is 1, and
the three queries at k = 0 all return 1. -/
theorem empty_vector_degenerate_case :
    construct ⟨[0], ([] : List ℚ)⟩ = .ok ⟨([] : List ℚ)⟩ ∧
    getPmfXi ([] : List ℚ) = .ok [1] ∧
    pmfVal ([] : List ℚ) 0 = 1 ∧
    cdfVal ([] : List ℚ) 0 = 1 ∧
    pmfQuery ⟨([] : List ℚ)⟩ (.inl (.int 0)) = .ok (.inl 1) ∧
    cdfQuery ⟨([] : List ℚ)⟩ (.inl (.int 0)) = .ok (.inl 1) ∧
    pvalQuery ⟨([] : List ℚ)⟩ (.inl (.int 0)) = .ok (.inl 1) := by
  have hpmf : pmfVal ([] : List ℚ) 0 = 1 := by
    rw [pmfVal_eq_pbProb ([] : List ℚ) 0 (le_refl 0)]
    rw [show pbProb ([] : List ℚ) 0 = 1 from by simp [pbProb, pbWeight]]
    norm_num
  have hcdf : cdfVal ([] : List ℚ) 0 = 1 := hpmf
  have hv : rvScalarValid (Dist.n ⟨([] : List ℚ)⟩) (PyNum.int 0) := by decide
  refine ⟨construct_ok _ ⟨rfl, by simp⟩, ?_, hpmf, hcdf, ?_, ?_, ?_⟩
  · rw [getPmfXi_eq]
    unfold xiList
    simp only [List.length_nil, Nat.zero_add]
    rw [show List.range 1 = [0] from rfl, List.map_cons, List.map_nil,
      List.map_cons, List.map_nil,
      show (xi ([] : List ℚ) 0).re = pmfVal ([] : List ℚ) 0 from rfl, hpmf]
  · rw [pmfQuery_inl_eq _ _ hv]
    rw [show (PyNum.int 0).idx = 0 from rfl, hpmf]
  · rw [cdfQuery_inl_eq _ _ hv]
    rw [show (PyNum.int 0).idx = 0 from rfl, hcdf]
  · rw [pvalQuery_inl_eq _ _ hv]
    rw [show (PyNum.int 0).idx = 0 from rfl, if_pos rfl]

/-- C10: the query-time check accepts a scalar exactly when its runtime type
is Python int or numpy int64 and its value lies in [0,n]; other carriers of an
integral value (numpy int32, the booleans) are rejected with the invalid-input
type message even when the value is in range. -/
theorem query_type_exactness (d : Dist) (k : PyNum) :
    ((∃ x, pmfQuery d (.inl k) = .ok x) ↔ rvScalarValid d.n k) ∧
    (∀ v : ℤ, PyNum.acceptedType (.int v) = true ∧
      PyNum.acceptedType (.int64 v) = true ∧
      PyNum.acceptedType (.int32 v) = false ∧
      PyNum.isIntegerValued (.int32 v) = true) ∧
    (∀ b : Bool, PyNum.acceptedType (.bool b) = false ∧
      PyNum.isIntegerValued (.bool b) = true) ∧
    (k.acceptedType = false →
      pmfQuery d (.inl k) =
        .error (.invalidInput ("Input value must be an integer."))) := by
  refine ⟨⟨?_, ?_⟩, fun v => ⟨rfl, rfl, rfl, rfl⟩, fun b => ⟨rfl, rfl⟩, ?_⟩
  · rintro ⟨x, hx⟩
    by_contra hnv
    obtain ⟨e, he⟩ := (pmfQuery_error_iff d (.inl k)).mpr hnv
    rw [hx] at he
    exact Except.noConfusion he
  · intro hv
    exact ⟨_, pmfQuery_inl_eq d k hv⟩
  · intro hna
    refine pmfQuery_error_of_check d _ _ ?_
    show checkRvScalar d.n k = _
    unfold checkRvScalar
    rw [if_pos (by simp [hna])]

end PoiBinSpec
